import Mathlib

/-!
# Oplog tail statistics (`collector/oplog_tail.go`)

A shallow embedding of the oplog tailer of the MongoDB exporter: the three
Prometheus counters it owns, the `select` loop of `OplogTailStats.Start`,
the exporter facade (`Export`, `Describe`) and the lazily started singleton
(`GetOplogTailStats`).

The Prometheus, mgo and gtm libraries are external to the repository; the
parts of their behaviour the file relies on are written out below and
marked as such.

Prometheus counters hold 64-bit floating point numbers.  Every value that
arises here is a non-negative integer, so a counter value is kept as the
natural number it denotes.  The entry size counter is fed
`float64(op.DataSize)`: the conversion and the addition round to 53
significant bits, and both roundings are part of the embedding.  The entry
count and the error counter only ever go up by one per loop iteration,
which is exact below `2 ^ 53`; they are kept as plain sums.
-/

namespace Collector

/-! ## Amounts in 64-bit floating point -/

/-- The multiple of `2 ^ e` nearest to `n`, the even multiple on a tie. -/
def roundAt (e n : Nat) : Nat :=
  if 2 * (n % 2 ^ e) < 2 ^ e ∨ (2 * (n % 2 ^ e) = 2 ^ e ∧ (n / 2 ^ e) % 2 = 0)
  then (n / 2 ^ e) * 2 ^ e else (n / 2 ^ e + 1) * 2 ^ e

/-- How often `n` has to be halved to fall below `2 ^ 53`: the exponent of
the spacing of the floating point numbers around `n`. -/
def halvings : Nat → Nat → Nat
  | 0, _ => 0
  | fuel + 1, n => if n < 2 ^ 53 then 0 else halvings fuel (n / 2) + 1

/-- The Go conversion `float64(n)` of a non-negative integer, and the
rounding of an exact sum of two such floats: the nearest number with 53
significant bits, ties to even.  The exponent range is left out: no sum of
Go `int` amounts comes near it. -/
def toFloat64 (n : Nat) : Nat :=
  roundAt (halvings n n) n

theorem halvings_bracket (fuel n : Nat) (h : n ≤ fuel) :
    n < 2 ^ 53 * 2 ^ halvings fuel n
    ∧ (halvings fuel n = 0 ∨ 2 ^ 52 * 2 ^ halvings fuel n ≤ n) := by
  induction fuel generalizing n with
  | zero =>
    have : n = 0 := by omega
    subst this
    simp [halvings]
  | succ f ih =>
    by_cases hn : n < 2 ^ 53
    · have hh : halvings (f + 1) n = 0 := by rw [halvings, if_pos hn]
      rw [hh]
      exact ⟨by omega, Or.inl rfl⟩
    · have hh : halvings (f + 1) n = halvings f (n / 2) + 1 := by rw [halvings, if_neg hn]
      have hf : n / 2 ≤ f := by omega
      have := ih (n / 2) hf
      rw [hh, pow_succ]
      refine ⟨by omega, Or.inr ?_⟩
      rcases this.2 with h0 | h1
      · rw [h0]
        omega
      · omega

theorem halvings_unique (n e : Nat) (h1 : n < 2 ^ 53 * 2 ^ e)
    (h2 : e = 0 ∨ 2 ^ 52 * 2 ^ e ≤ n) : halvings n n = e := by
  have hb := halvings_bracket n n (le_refl n)
  generalize halvings n n = a at hb
  rcases Nat.lt_trichotomy a e with hlt | heq | hgt
  · exfalso
    rcases h2 with h0 | h2
    · omega
    · have : 2 ^ 53 * 2 ^ a ≤ 2 ^ 52 * 2 ^ e := by
        have h3 : 2 ^ (a + 1) ≤ 2 ^ e := Nat.pow_le_pow_right (by norm_num) hlt
        rw [pow_succ] at h3
        omega
      omega
  · exact heq
  · exfalso
    rcases hb.2 with h0 | h3
    · omega
    · have : 2 ^ 53 * 2 ^ e ≤ 2 ^ 52 * 2 ^ a := by
        have h4 : 2 ^ (e + 1) ≤ 2 ^ a := Nat.pow_le_pow_right (by norm_num) hgt
        rw [pow_succ] at h4
        omega
      omega

theorem roundAt_zero (n : Nat) : roundAt 0 n = n := by
  simp [roundAt, Nat.mod_one]

theorem roundAt_mul (e m : Nat) : roundAt e (m * 2 ^ e) = m * 2 ^ e := by
  have hp : 0 < 2 ^ e := Nat.two_pow_pos _
  simp [roundAt, Nat.mul_mod_left, Nat.mul_div_cancel _ hp]

theorem roundAt_cases (e n : Nat) :
    roundAt e n = (n / 2 ^ e) * 2 ^ e ∨ roundAt e n = (n / 2 ^ e + 1) * 2 ^ e := by
  unfold roundAt
  split
  · exact Or.inl rfl
  · exact Or.inr rfl

theorem le_roundAt_of_mul (e m n : Nat) (h : m * 2 ^ e ≤ n) : m * 2 ^ e ≤ roundAt e n := by
  have hp : 0 < 2 ^ e := Nat.two_pow_pos _
  have hq : m ≤ n / 2 ^ e := (Nat.le_div_iff_mul_le hp).2 h
  rcases roundAt_cases e n with h1 | h1 <;> rw [h1]
  · exact Nat.mul_le_mul_right _ hq
  · exact Nat.mul_le_mul_right _ (by omega)

/-- Integers up to `2 ^ 53` are floating point numbers. -/
theorem toFloat64_exact (n : Nat) (h : n ≤ 2 ^ 53) : toFloat64 n = n := by
  rcases Nat.lt_or_ge n (2 ^ 53) with hlt | hge
  · have : halvings n n = 0 := halvings_unique n 0 (by simpa using hlt) (Or.inl rfl)
    rw [toFloat64, this, roundAt_zero]
  · have : n = 2 ^ 53 := by omega
    subst this
    decide

/-- Rounding lands on a floating point number. -/
theorem toFloat64_idem (n : Nat) : toFloat64 (toFloat64 n) = toFloat64 n := by
  have hb := halvings_bracket n n (le_refl n)
  rcases hb.2 with h0 | h1
  · have : toFloat64 n = n := by rw [toFloat64, h0, roundAt_zero]
    rw [this, this]
  · have hz : toFloat64 n = roundAt (halvings n n) n := rfl
    generalize halvings n n = e at hb h1 hz
    have hp : 0 < 2 ^ e := Nat.two_pow_pos _
    have hq1 : 2 ^ 52 ≤ n / 2 ^ e := (Nat.le_div_iff_mul_le hp).2 h1
    have hq2 : n / 2 ^ e < 2 ^ 53 := (Nat.div_lt_iff_lt_mul hp).2 hb.1
    have key : ∀ m, 2 ^ 52 ≤ m → m ≤ 2 ^ 53 → toFloat64 (m * 2 ^ e) = m * 2 ^ e := by
      intro m hm1 hm2
      rcases Nat.lt_or_ge m (2 ^ 53) with hlt | hge
      · have he : halvings (m * 2 ^ e) (m * 2 ^ e) = e :=
          halvings_unique _ e (Nat.mul_lt_mul_of_pos_right hlt hp)
            (Or.inr (Nat.mul_le_mul_right _ hm1))
        rw [toFloat64, he, roundAt_mul]
      · have hm : m = 2 ^ 53 := by omega
        have hrew : m * 2 ^ e = 2 ^ 52 * 2 ^ (e + 1) := by
          rw [hm, pow_succ 2 e]
          omega
        have he : halvings (m * 2 ^ e) (m * 2 ^ e) = e + 1 := by
          apply halvings_unique
          · rw [hrew]
            exact Nat.mul_lt_mul_of_pos_right (by omega) (Nat.two_pow_pos _)
          · exact Or.inr (le_of_eq hrew.symm)
        rw [toFloat64, he]
        rw [hrew, roundAt_mul]
    rcases roundAt_cases e n with h2 | h2
    · rw [hz, h2]
      exact key _ hq1 (le_of_lt hq2)
    · rw [hz, h2]
      exact key _ (by omega) (by omega)

/-- Rounding never goes below a floating point number that the exact value
has reached. -/
theorem le_toFloat64 (x y : Nat) (hx : toFloat64 x = x) (hxy : x ≤ y) : x ≤ toFloat64 y := by
  have hby := halvings_bracket y y (le_refl y)
  have hbx := halvings_bracket x x (le_refl x)
  have hzy : toFloat64 y = roundAt (halvings y y) y := rfl
  have hzx : toFloat64 x = roundAt (halvings x x) x := rfl
  generalize halvings y y = ey at hby hzy
  generalize halvings x x = ex at hbx hzx
  rcases hby.2 with h0 | h1
  · rw [hzy, h0, roundAt_zero]
    exact hxy
  · have hB : 2 ^ 52 * 2 ^ ey ≤ toFloat64 y := by
      rw [hzy]
      exact le_roundAt_of_mul ey _ y h1
    rcases Nat.lt_trichotomy ex ey with hlt | heq | hgt
    · have h3 : 2 ^ (ex + 1) ≤ 2 ^ ey := Nat.pow_le_pow_right (by norm_num) hlt
      rw [pow_succ] at h3
      omega
    · subst heq
      rw [hx] at hzx
      rcases roundAt_cases ex x with h2 | h2
      · rw [hzy, hzx, h2]
        apply le_roundAt_of_mul
        rw [← h2, ← hzx]
        exact hxy
      · rw [hzy, hzx, h2]
        apply le_roundAt_of_mul
        rw [← h2, ← hzx]
        exact hxy
    · exfalso
      have h4 : 2 ^ (ey + 1) ≤ 2 ^ ex := Nat.pow_le_pow_right (by norm_num) hgt
      rw [pow_succ] at h4
      rcases hbx.2 with h5 | h5
      · omega
      · omega

/-! ## Counter registry -/

/-- The label values of one series of a vector counter, in the declared
order `["ns", "op"]`. -/
abbrev LabelValues := String × String

/-- The series list after `WithLabelValues(k).Add(v)` with the sum kept
exact, as it is for the increments by one: the series of `k` is created at
zero when it is missing, then `v` is added to it. -/
def addAt : List (LabelValues × Nat) → LabelValues → Nat → List (LabelValues × Nat)
  | [], k, v => [(k, 0 + v)]
  | (k', x) :: rest, k, v =>
    if k' = k then (k', x + v) :: rest else (k', x) :: addAt rest k v

/-- The series list after `WithLabelValues(k).Add(v)` for a floating point
amount `v`: the series of `k` is created at zero when it is missing, and its
new value is the floating point sum of its old value and `v`. -/
def addFloatAt : List (LabelValues × Nat) → LabelValues → Nat → List (LabelValues × Nat)
  | [], k, v => [(k, toFloat64 (0 + v))]
  | (k', x) :: rest, k, v =>
    if k' = k then (k', toFloat64 (x + v)) :: rest else (k', x) :: addFloatAt rest k v

/-- The value stored for `k` in a series list; zero when `k` has no series. -/
def valueAt : List (LabelValues × Nat) → LabelValues → Nat
  | [], _ => 0
  | (k', x) :: rest, k => if k' = k then x else valueAt rest k

theorem mem_keys_addAt (l : List (LabelValues × Nat)) (k : LabelValues) (v : Nat)
    (a : LabelValues) (h : a ∈ (addAt l k v).map Prod.fst) :
    a ∈ l.map Prod.fst ∨ a = k := by
  induction l with
  | nil => simpa [addAt] using h
  | cons p rest ih =>
    obtain ⟨k', x⟩ := p
    by_cases hk : k' = k
    · left
      simpa [addAt, hk] using h
    · simp only [addAt, hk, if_false, List.map_cons, List.mem_cons] at h
      rcases h with h | h
      · left
        simp [h]
      · rcases ih h with h' | h'
        · left
          simp [h']
        · right
          exact h'

theorem nodup_keys_addAt (l : List (LabelValues × Nat)) (k : LabelValues) (v : Nat)
    (h : (l.map Prod.fst).Nodup) : ((addAt l k v).map Prod.fst).Nodup := by
  induction l with
  | nil => simp [addAt]
  | cons p rest ih =>
    obtain ⟨k', x⟩ := p
    simp only [List.map_cons, List.nodup_cons] at h
    by_cases hk : k' = k
    · simpa [addAt, hk] using h
    · simp only [addAt, hk, if_false, List.map_cons, List.nodup_cons]
      refine ⟨fun hmem => ?_, ih h.2⟩
      rcases mem_keys_addAt rest k v k' hmem with h' | h'
      · exact h.1 h'
      · exact hk h'

theorem keys_addFloatAt (l : List (LabelValues × Nat)) (k : LabelValues) (v : Nat) :
    (addFloatAt l k v).map Prod.fst = (addAt l k v).map Prod.fst := by
  induction l with
  | nil => rfl
  | cons p rest ih =>
    obtain ⟨k', x⟩ := p
    by_cases hk : k' = k
    · simp [addFloatAt, addAt, hk]
    · simp [addFloatAt, addAt, hk, ih]

theorem isFloat_addFloatAt (l : List (LabelValues × Nat)) (k : LabelValues) (v : Nat)
    (h : ∀ p ∈ l, toFloat64 p.2 = p.2) : ∀ p ∈ addFloatAt l k v, toFloat64 p.2 = p.2 := by
  induction l with
  | nil =>
    intro p hp
    simp only [addFloatAt, List.mem_singleton] at hp
    subst hp
    exact toFloat64_idem _
  | cons q rest ih =>
    obtain ⟨k', x⟩ := q
    intro p hp
    by_cases hk : k' = k
    · simp only [addFloatAt, hk, if_true, List.mem_cons] at hp
      rcases hp with hp | hp
      · subst hp
        exact toFloat64_idem _
      · exact h p (List.mem_cons_of_mem _ hp)
    · simp only [addFloatAt, hk, if_false, List.mem_cons] at hp
      rcases hp with hp | hp
      · subst hp
        exact h (k', x) (List.mem_cons_self _ _)
      · exact ih (fun a ha => h a (List.mem_cons_of_mem _ ha)) p hp

/-- A `prometheus.CounterVec`: the series created so far, each with its
current value.  A series exists from the first `WithLabelValues` call that
names it, and label values identify a series. -/
structure CounterVec where
  series : List (LabelValues × Nat)
  nodup : (series.map Prod.fst).Nodup

/-- The call `c.WithLabelValues(ns, op).Add(v)`. -/
def CounterVec.WithLabelValuesAdd (c : CounterVec) (k : LabelValues) (v : Nat) : CounterVec :=
  ⟨addAt c.series k v, nodup_keys_addAt c.series k v c.nodup⟩

/-- The call `c.WithLabelValues(ns, op).Add(v)` for a floating point amount. -/
def CounterVec.WithLabelValuesAddFloat (c : CounterVec) (k : LabelValues) (v : Nat) :
    CounterVec :=
  ⟨addFloatAt c.series k v, by
    rw [keys_addFloatAt]
    exact nodup_keys_addAt c.series k v c.nodup⟩

/-- A vector counter with no series yet. -/
def CounterVec.empty : CounterVec :=
  ⟨[], List.nodup_nil⟩

/-- The current value of the series `k` (zero when it was never touched). -/
def CounterVec.value (c : CounterVec) (k : LabelValues) : Nat :=
  valueAt c.series k

/-- The label values of the existing series. -/
def CounterVec.keys (c : CounterVec) : List LabelValues :=
  c.series.map Prod.fst

/-- The sum of the values of all series of the vector. -/
def CounterVec.total (c : CounterVec) : Nat :=
  (c.series.map Prod.snd).sum

/-- The package-level counters `oplogEntryCount`, `oplogEntrySize` and
`oplogTailError`.  Every entry size is a floating point number. -/
structure Registry where
  oplogEntryCount : CounterVec
  oplogEntrySize : CounterVec
  oplogTailError : Nat
  sizeIsFloat : ∀ p ∈ oplogEntrySize.series, toFloat64 p.2 = p.2

/-- The registry at process start: no series, no errors. -/
def Registry.zero : Registry :=
  ⟨CounterVec.empty, CounterVec.empty, 0, fun p hp => absurd hp (List.not_mem_nil p)⟩

/-! ## Items read by the tail loop -/

/-- Modelled from the spec: `gtm.Op` is declared in the tailing library, which
is not part of the sources.  Only the three fields the loop reads are kept;
`DataSize` is the byte size of the entry, a non-negative integer. -/
structure Op where
  Namespace : String
  Operation : String
  DataSize : Nat
deriving DecidableEq, Repr

/-- A non-nil Go `error`, kept as its message. -/
abbrev TailError := String

/-- The series an entry is counted under. -/
def Op.key (op : Op) : LabelValues :=
  (op.Namespace, op.Operation)

/-- The body of `case err := <-ctx.ErrC` on the counters:
`oplogTailError.Add(1)`. -/
def onErr (r : Registry) : Registry :=
  { r with oplogTailError := r.oplogTailError + 1 }

/-- The body of `case op := <-ctx.OpC` for a non-nil `op`: one is added to
the entry count and `float64(op.DataSize)` to the entry size of the series
`(op.Namespace, op.Operation)`.  `Counter.Add` refuses negative amounts
only, and none arises here. -/
def onOp (r : Registry) (op : Op) : Registry :=
  { oplogEntryCount := r.oplogEntryCount.WithLabelValuesAdd (op.Namespace, op.Operation) 1
    oplogEntrySize :=
      r.oplogEntrySize.WithLabelValuesAddFloat (op.Namespace, op.Operation)
        (toFloat64 op.DataSize)
    oplogTailError := r.oplogTailError
    sizeIsFloat := isFloat_addFloatAt r.oplogEntrySize.series _ _ r.sizeIsFloat }

/-- One item delivered to the loop: a tail error or a change event. -/
inductive Item where
  | err (e : TailError)
  | op (o : Op)
deriving DecidableEq, Repr

/-- One iteration of the loop on a delivered item. -/
def step (r : Registry) : Item → Registry
  | .err _ => onErr r
  | .op o => onOp r o

/-- The loop run over the items in the order they were delivered. -/
def consume (r : Registry) (items : List Item) : Registry :=
  items.foldl step r

/-! ## The select loop over the two channels -/

/-- A Go channel as the loop sees it: the values still to be delivered, and
whether the sending side has closed it. -/
structure Chan (α : Type) where
  pending : List α
  closed : Bool
deriving DecidableEq, Repr

/-- The result of trying to receive: nothing is ready, or a value (`none` is
the zero value `nil`) together with the channel afterwards. -/
inductive Recv (α : Type) where
  | blocks
  | value (v : Option α) (rest : Chan α)

/-- Receiving from a channel: pending values come first; a drained closed
channel yields the zero value at once, a drained open channel blocks. -/
def Chan.recv {α : Type} (c : Chan α) : Recv α :=
  match c.pending with
  | x :: xs => .value (some x) ⟨xs, c.closed⟩
  | [] => if c.closed then .value none c else .blocks

/-- The state of a running `Start`: the counters, the two channels of the
tailing context and the diagnostics written with `glog.Errorf`. -/
structure LoopState where
  reg : Registry
  ErrC : Chan TailError
  OpC : Chan Op
  log : List String

/-- How one iteration of the loop ends. -/
inductive Outcome where
  | blocked
  | next (s : LoopState)
  | panicked

/-- The text `glog.Errorf` writes for a received error value. -/
def errorLine (e : Option TailError) : String :=
  "Error getting entry from oplog: " ++ (match e with
    | some m => m
    | none => "<nil>")

/-- The error case: count the error, then log it. -/
def errCase (s : LoopState) (e : Option TailError) (rest : Chan TailError) : Outcome :=
  .next { s with reg := onErr s.reg, ErrC := rest, log := s.log ++ [errorLine e] }

/-- The event case: `op.Namespace` is read first, which panics on a nil
`op`; otherwise the two vector counters are updated. -/
def opCase (s : LoopState) (o : Option Op) (rest : Chan Op) : Outcome :=
  match o with
  | none => .panicked
  | some op => .next { s with reg := onOp s.reg op, OpC := rest }

/-- One `select`: it blocks when neither channel is ready, runs the ready
case when one is, and when both are ready the runtime chooses
(`preferErr` is that choice). -/
def selectIter (preferErr : Bool) (s : LoopState) : Outcome :=
  match s.ErrC.recv, s.OpC.recv with
  | .blocks, .blocks => .blocked
  | .value e rest, .blocks => errCase s e rest
  | .blocks, .value o rest => opCase s o rest
  | .value e rest, .value o rest' =>
    if preferErr then errCase s e rest else opCase s o rest'

/-- Where a bounded run of the loop stands. -/
inductive Status where
  | running
  | blocked
  | panicked
deriving DecidableEq, Repr

/-- The `for` loop run for at most `fuel` iterations under the choices
`sched`, with the state it reached. -/
def runLoop (sched : Nat → Bool) : Nat → LoopState → Status × LoopState
  | 0, s => (.running, s)
  | fuel + 1, s =>
    match selectIter (sched fuel) s with
    | .blocked => (.blocked, s)
    | .panicked => (.panicked, s)
    | .next s' => runLoop sched fuel s'

/-- A channel that is open and holds the given values. -/
def Chan.feed {α : Type} (xs : List α) : Chan α :=
  ⟨xs, false⟩

/-- The loop state right after `gtm.Start` with a given registry. -/
def LoopState.init (r : Registry) (errs : List TailError) (ops : List Op) : LoopState :=
  ⟨r, Chan.feed errs, Chan.feed ops, []⟩

/-- The number of values the two channels still hold. -/
def LoopState.backlog (s : LoopState) : Nat :=
  s.ErrC.pending.length + s.OpC.pending.length

/-- The grand total of a registry: all entry counts plus the error count. -/
def Registry.grandTotal (r : Registry) : Nat :=
  r.oplogEntryCount.total + r.oplogTailError

/-! ## Exporter facade -/

/-- A `prometheus.Desc` as far as the exporter fixes it: the fully
qualified name, the help text and the label names. -/
structure Desc where
  fqName : String
  help : String
  variableLabels : List String
deriving DecidableEq, Repr

/-- One sample sent to the collection channel. -/
structure Metric where
  desc : Desc
  labelValues : List String
  value : Nat
deriving DecidableEq, Repr

/-- The library function `prometheus.BuildFQName`: the non-empty parts
joined by underscores, and nothing at all for an empty name. -/
def BuildFQName (ns subsystem name : String) : String :=
  if name = "" then ""
  else if ns ≠ "" ∧ subsystem ≠ "" then ns ++ "_" ++ subsystem ++ "_" ++ name
  else if ns ≠ "" then ns ++ "_" ++ name
  else if subsystem ≠ "" then subsystem ++ "_" ++ name
  else name

/-- The descriptor of `oplogEntryCount`.  `ns` is the package constant
`Namespace`, which is declared in another file of the package. -/
def entryCountDesc (ns : String) : Desc :=
  ⟨BuildFQName ns "oplogtail" "entry_count",
   "The total number of entries observed in the oplog by ns/op", ["ns", "op"]⟩

/-- The descriptor of `oplogEntrySize`. -/
def entrySizeDesc (ns : String) : Desc :=
  ⟨BuildFQName ns "oplogtail" "entry_size",
   "The total size of entries observed in the oplog by ns/op", ["ns", "op"]⟩

/-- The descriptor of `oplogTailError`. -/
def tailErrorDesc (ns : String) : Desc :=
  ⟨BuildFQName ns "oplogtail" "tail_error",
   "The total number of errors while tailing the oplog", []⟩

/-- The method `CounterVec.Collect`: one sample per existing series.  (The
library walks a Go map, so the order among the series of one vector is not
fixed; the order of the series list stands for the order of one walk.) -/
def CounterVec.Collect (d : Desc) (c : CounterVec) (ch : List Metric) : List Metric :=
  ch ++ c.series.map (fun p => ⟨d, [p.1.1, p.1.2], p.2⟩)

/-- The method `Counter.Collect` of the plain error counter. -/
def collectCounter (d : Desc) (v : Nat) (ch : List Metric) : List Metric :=
  ch ++ [⟨d, [], v⟩]

/-- The method `OplogTailStats.Export`: the three `Collect` calls in source
order, sending to `ch`.  The registry is threaded through to make the
absence of writes a statement. -/
def Export (ns : String) (r : Registry) (ch : List Metric) : Registry × List Metric :=
  let ch1 := r.oplogEntryCount.Collect (entryCountDesc ns) ch
  let ch2 := r.oplogEntrySize.Collect (entrySizeDesc ns) ch1
  let ch3 := collectCounter (tailErrorDesc ns) r.oplogTailError ch2
  (r, ch3)

/-- The method `OplogTailStats.Describe`: the three `Describe` calls in
source order; each counter sends its one descriptor. -/
def Describe (ns : String) (r : Registry) (ch : List Desc) : Registry × List Desc :=
  let ch1 := ch ++ [entryCountDesc ns]
  let ch2 := ch1 ++ [entrySizeDesc ns]
  let ch3 := ch2 ++ [tailErrorDesc ns]
  (r, ch3)

/-! ## Sessions, options and the singleton -/

/-- The consistency modes of `mgo`. -/
inductive Mode where
  | Eventual
  | Monotonic
  | Strong
deriving DecidableEq, Repr

/-- The constant `time.Second`, in nanoseconds. -/
def Second : Nat := 1000000000

/-- An `mgo.DialInfo` as far as `SetSocketTimeout` writes it (durations in
nanoseconds, as `time.Duration`). -/
structure DialInfo where
  ReadTimeout : Nat
  WriteTimeout : Nat
deriving DecidableEq, Repr

/-- The `mgo.Session` struct as far as `Copy` and `Start` touch it: the
address of its `DialInfo` (the field is a `*DialInfo`), the consistency
mode and whether it was closed; `topologyOplog` is what the server would
answer when asked for the name of its oplog collection (`none` on a node
outside any replica set). -/
structure SessionData where
  dialInfo : Nat
  mode : Mode
  closed : Bool
  topologyOplog : Option String
deriving DecidableEq, Repr

/-- What the user of a session observes of it: the socket timeout in force,
the consistency mode, whether it was closed, and the oplog name its server
would give. -/
structure Session where
  socketTimeout : Nat
  mode : Mode
  closed : Bool
  topologyOplog : Option String
deriving DecidableEq, Repr

/-- The fields of `gtm.Options` that `Start` writes.  `OpLogCollectionName`
is a `*string`: `none` is the nil pointer. -/
structure Options where
  IncludeMigrate : Bool
  OpLogCollectionName : Option String
deriving DecidableEq, Repr

/-- The call `gtm.Start(session, opts)` as it is made: which session, the
state that session is in at that moment, and the options. -/
structure GtmStart where
  session : Nat
  sessionState : Session
  opts : Options
deriving DecidableEq, Repr

/-- The process state the singleton code works on: the session structs and
the `DialInfo` values by address, the next free session address, the
package variable `tailer`, the next free handle address, and the goroutines
launched so far (handle and session of each `go tailer.Start(...)`). -/
structure World where
  store : Nat → SessionData
  dialInfos : Nat → DialInfo
  nextSession : Nat
  tailer : Option Nat
  nextHandle : Nat
  goroutines : List (Nat × Nat)

/-- The session at an address as its user observes it; the socket timeout
is read through the `DialInfo` the session points at. -/
def World.sessions (w : World) (p : Nat) : Session :=
  ⟨(w.dialInfos (w.store p).dialInfo).ReadTimeout, (w.store p).mode, (w.store p).closed,
   (w.store p).topologyOplog⟩

/-- Writing one session struct. -/
def setData (m : Nat → SessionData) (p : Nat) (s : SessionData) : Nat → SessionData :=
  fun q => if q = p then s else m q

/-- Writing one `DialInfo`. -/
def setDial (m : Nat → DialInfo) (a : Nat) (d : DialInfo) : Nat → DialInfo :=
  fun b => if b = a then d else m b

/-- The library method `session.Copy()` of `globalsign/mgo`: it panics with
"Session already closed" on a closed session (`none`); otherwise the struct
is copied to a fresh address, so that the copy points at the same
`DialInfo` as the original. -/
def Copy (w : World) (p : Nat) : Option (World × Nat) :=
  if (w.store p).closed then none
  else some ({ w with
                store := setData w.store w.nextSession (w.store p)
                nextSession := w.nextSession + 1 }, w.nextSession)

/-- The library method `session.SetSocketTimeout(d)` of `globalsign/mgo`:
the read and write timeouts of the `DialInfo` the session points at. -/
def SetSocketTimeout (w : World) (p : Nat) (d : Nat) : World :=
  { w with
    dialInfos := setDial w.dialInfos (w.store p).dialInfo
      { w.dialInfos (w.store p).dialInfo with ReadTimeout := d, WriteTimeout := d } }

/-- The library method `session.SetMode(mode, refresh)`. -/
def SetMode (w : World) (p : Nat) (m : Mode) : World :=
  { w with store := setData w.store p { w.store p with mode := m } }

/-- The library method `session.Close()`. -/
def Close (w : World) (p : Nat) : World :=
  { w with store := setData w.store p { w.store p with closed := true } }

/-- The part of `Start` before the loop: the socket timeout, the mode, the
options built on `gtm.DefaultOptions()` (here `defaults`), and the call of
`gtm.Start` with them. -/
def StartSetup (defaults : Options) (w : World) (session : Nat) : World × GtmStart :=
  let timeout := Second * 120
  let w1 := SetSocketTimeout w session timeout
  let w2 := SetMode w1 session Mode.Monotonic
  let opts := defaults
  let opts := { opts with IncludeMigrate := true }
  let oplogName := "oplog.rs"
  let opts := { opts with OpLogCollectionName := some oplogName }
  (w2, ⟨session, w2.sessions session, opts⟩)

/-- The deferred `session.Close()` of `Start`, which runs when `Start`
unwinds. -/
def StartDeferred (w : World) (session : Nat) : World :=
  Close w session

/-- The oplog name the tailing library settles on, as the comment in
`Start` describes it: the name in the options when there is one, else the
answer of the topology, and a failure when the node has none. -/
def gtmOplogName (call : GtmStart) : Except String String :=
  match call.opts.OpLogCollectionName with
  | some n => .ok n
  | none =>
    match call.sessionState.topologyOplog with
    | some n => .ok n
    | none => .error "no oplog collection"

/-- The function `GetOplogTailStats`: on a nil `tailer` a handle is
allocated and stored in `tailer`, then the session is copied and `Start`
launched on the copy; the handle in `tailer` is returned.  The result is
`none` when the call panics, which it does when `Copy` does. -/
def GetOplogTailStats (w : World) (session : Nat) : World × Option Nat :=
  match w.tailer with
  | none =>
    let h := w.nextHandle
    let w1 := { w with tailer := some h, nextHandle := h + 1 }
    match Copy w1 session with
    | none => (w1, none)
    | some (w2, c) => ({ w2 with goroutines := w2.goroutines ++ [(h, c)] }, some h)
  | some h => (w, some h)

/-- A sequence of calls, one after the other, with what each returned. -/
def callAll : World → List Nat → World × List (Option Nat)
  | w, [] => (w, [])
  | w, p :: ps =>
    let (w1, h) := GetOplogTailStats w p
    let (w2, hs) := callAll w1 ps
    (w2, h :: hs)

/-- A process state before any call: three open sessions, each with a
`DialInfo` of its own (session `q` has a socket timeout of `q` ns), no
tailer. -/
def sampleWorld : World :=
  { store := fun q => ⟨q, Mode.Strong, false, none⟩
    dialInfos := fun a => ⟨a, a⟩
    nextSession := 3
    tailer := none
    nextHandle := 0
    goroutines := [] }

/-- The same state with session 0 already closed. -/
def closedWorld : World :=
  { sampleWorld with store := fun q => ⟨q, Mode.Strong, decide (q = 0), none⟩ }

/-! ## Lemmas on the counters -/

theorem valueAt_addAt_same (l : List (LabelValues × Nat)) (k : LabelValues) (v : Nat) :
    valueAt (addAt l k v) k = valueAt l k + v := by
  induction l with
  | nil => simp [addAt, valueAt]
  | cons p rest ih =>
    obtain ⟨k', x⟩ := p
    by_cases hk : k' = k
    · simp [addAt, valueAt, hk]
    · simp [addAt, valueAt, hk, ih]

theorem valueAt_addAt_other (l : List (LabelValues × Nat)) (k k' : LabelValues) (v : Nat)
    (h : k' ≠ k) : valueAt (addAt l k v) k' = valueAt l k' := by
  induction l with
  | nil => simp [addAt, valueAt, Ne.symm h]
  | cons p rest ih =>
    obtain ⟨a, x⟩ := p
    by_cases ha : a = k
    · subst ha
      simp [addAt, valueAt, Ne.symm h]
    · by_cases hb : a = k'
      · subst hb
        simp [addAt, valueAt, ha]
      · simp [addAt, valueAt, ha, hb, ih]

theorem valueAt_addFloatAt_same (l : List (LabelValues × Nat)) (k : LabelValues) (v : Nat) :
    valueAt (addFloatAt l k v) k = toFloat64 (valueAt l k + v) := by
  induction l with
  | nil => simp [addFloatAt, valueAt]
  | cons p rest ih =>
    obtain ⟨k', x⟩ := p
    by_cases hk : k' = k
    · simp [addFloatAt, valueAt, hk]
    · simp [addFloatAt, valueAt, hk, ih]

theorem valueAt_addFloatAt_other (l : List (LabelValues × Nat)) (k k' : LabelValues) (v : Nat)
    (h : k' ≠ k) : valueAt (addFloatAt l k v) k' = valueAt l k' := by
  induction l with
  | nil => simp [addFloatAt, valueAt, Ne.symm h]
  | cons p rest ih =>
    obtain ⟨a, x⟩ := p
    by_cases ha : a = k
    · subst ha
      simp [addFloatAt, valueAt, Ne.symm h]
    · by_cases hb : a = k'
      · subst hb
        simp [addFloatAt, valueAt, ha]
      · simp [addFloatAt, valueAt, ha, hb, ih]

/-- The value read for any series of a vector of floats is a float. -/
theorem isFloat_valueAt (l : List (LabelValues × Nat)) (h : ∀ p ∈ l, toFloat64 p.2 = p.2)
    (k : LabelValues) : toFloat64 (valueAt l k) = valueAt l k := by
  induction l with
  | nil => exact toFloat64_exact 0 (Nat.zero_le _)
  | cons p rest ih =>
    obtain ⟨k', x⟩ := p
    by_cases hk : k' = k
    · simpa [valueAt, hk] using h (k', x) (List.mem_cons_self _ _)
    · simpa [valueAt, hk] using ih (fun a ha => h a (List.mem_cons_of_mem _ ha))

theorem sum_addAt (l : List (LabelValues × Nat)) (k : LabelValues) (v : Nat) :
    ((addAt l k v).map Prod.snd).sum = (l.map Prod.snd).sum + v := by
  induction l with
  | nil => simp [addAt]
  | cons p rest ih =>
    obtain ⟨k', x⟩ := p
    by_cases hk : k' = k
    · simp [addAt, hk]
      omega
    · simp [addAt, hk, ih]
      omega

theorem value_le_add (c : CounterVec) (k k' : LabelValues) (v : Nat) :
    c.value k' ≤ (c.WithLabelValuesAdd k v).value k' := by
  unfold CounterVec.value CounterVec.WithLabelValuesAdd
  by_cases h : k' = k
  · subst h
    rw [valueAt_addAt_same]
    exact Nat.le_add_right _ _
  · rw [valueAt_addAt_other _ _ _ _ h]

theorem value_le_addFloat (c : CounterVec) (hc : ∀ p ∈ c.series, toFloat64 p.2 = p.2)
    (k k' : LabelValues) (v : Nat) :
    c.value k' ≤ (c.WithLabelValuesAddFloat k v).value k' := by
  unfold CounterVec.value CounterVec.WithLabelValuesAddFloat
  by_cases h : k' = k
  · subst h
    rw [valueAt_addFloatAt_same]
    exact le_toFloat64 _ _ (isFloat_valueAt c.series hc k') (Nat.le_add_right _ _)
  · rw [valueAt_addFloatAt_other _ _ _ _ h]

theorem consume_append (r : Registry) (xs ys : List Item) :
    consume r (xs ++ ys) = consume (consume r xs) ys := by
  simp [consume, List.foldl_append]

theorem consume_cons (r : Registry) (x : Item) (xs : List Item) :
    consume r (x :: xs) = consume (step r x) xs := rfl

/-- Each delivered item moves the grand total (all entry counts plus the
error count) up by one. -/
theorem step_total (r : Registry) (x : Item) :
    (step r x).oplogEntryCount.total + (step r x).oplogTailError
      = r.oplogEntryCount.total + r.oplogTailError + 1 := by
  cases x with
  | err e => simp [step, onErr]; omega
  | op o =>
    simp only [step, onOp, CounterVec.total, CounterVec.WithLabelValuesAdd, sum_addAt]
    omega

theorem consume_total (items : List Item) (r : Registry) :
    (consume r items).oplogEntryCount.total + (consume r items).oplogTailError
      = r.oplogEntryCount.total + r.oplogTailError + items.length := by
  induction items generalizing r with
  | nil => simp [consume]
  | cons x xs ih =>
    rw [consume_cons, ih, step_total, List.length_cons]
    omega

/-- No series ever goes down in one iteration. -/
theorem step_mono (r : Registry) (x : Item) (k : LabelValues) :
    r.oplogEntryCount.value k ≤ (step r x).oplogEntryCount.value k
    ∧ r.oplogEntrySize.value k ≤ (step r x).oplogEntrySize.value k
    ∧ r.oplogTailError ≤ (step r x).oplogTailError := by
  cases x with
  | err e => simp [step, onErr]
  | op o =>
    exact ⟨value_le_add _ _ _ _, value_le_addFloat _ r.sizeIsFloat _ _ _, le_refl _⟩

theorem consume_mono (items : List Item) (r : Registry) (k : LabelValues) :
    r.oplogEntryCount.value k ≤ (consume r items).oplogEntryCount.value k
    ∧ r.oplogEntrySize.value k ≤ (consume r items).oplogEntrySize.value k
    ∧ r.oplogTailError ≤ (consume r items).oplogTailError := by
  induction items generalizing r with
  | nil => simp [consume]
  | cons x xs ih =>
    rw [consume_cons]
    have h1 := step_mono r x k
    have h2 := ih (step r x)
    exact ⟨le_trans h1.1 h2.1, le_trans h1.2.1 h2.2.1, le_trans h1.2.2 h2.2.2⟩

/-- Events of one series, run from any registry: the count of the series
grows by their number. -/
theorem consume_same_key_count (k : LabelValues) (es : List Op) (hk : ∀ e ∈ es, e.key = k)
    (r : Registry) :
    (consume r (es.map Item.op)).oplogEntryCount.value k
        = r.oplogEntryCount.value k + es.length := by
  induction es generalizing r with
  | nil => simp [consume]
  | cons e es ih =>
    have he : (e.Namespace, e.Operation) = k := hk e (List.mem_cons_self _ _)
    have ih' := ih (fun x hx => hk x (List.mem_cons_of_mem _ hx)) (step r (Item.op e))
    rw [List.map_cons, consume_cons, ih']
    simp only [step, onOp, CounterVec.value, CounterVec.WithLabelValuesAdd, he,
      valueAt_addAt_same, List.length_cons]
    omega

/-- Events of one series, run from any registry: while the exact total
stays within `2 ^ 53`, the size of the series grows by the sum of their
sizes. -/
theorem consume_same_key_size (k : LabelValues) (es : List Op) (hk : ∀ e ∈ es, e.key = k)
    (r : Registry)
    (hb : r.oplogEntrySize.value k + (es.map Op.DataSize).sum ≤ 2 ^ 53) :
    (consume r (es.map Item.op)).oplogEntrySize.value k
        = r.oplogEntrySize.value k + (es.map Op.DataSize).sum := by
  induction es generalizing r with
  | nil => simp [consume]
  | cons e es ih =>
    have he : (e.Namespace, e.Operation) = k := hk e (List.mem_cons_self _ _)
    simp only [List.map_cons, List.sum_cons] at hb
    have hstep : (step r (Item.op e)).oplogEntrySize.value k
        = r.oplogEntrySize.value k + e.DataSize := by
      simp only [step, onOp, CounterVec.value, CounterVec.WithLabelValuesAddFloat, he,
        valueAt_addFloatAt_same]
      rw [toFloat64_exact e.DataSize (by omega)]
      exact toFloat64_exact _ (by simp only [CounterVec.value] at hb; omega)
    have ih' := ih (fun x hx => hk x (List.mem_cons_of_mem _ hx)) (step r (Item.op e))
      (by rw [hstep]; omega)
    rw [List.map_cons, consume_cons, ih', hstep, List.map_cons, List.sum_cons]
    omega

/-! ## Lemmas on the select loop -/

theorem recv_feed_nil {α : Type} : (Chan.feed ([] : List α)).recv = Recv.blocks := rfl

theorem recv_feed_cons {α : Type} (x : α) (xs : List α) :
    (Chan.feed (x :: xs)).recv = Recv.value (some x) (Chan.feed xs) := rfl

/-- With an idle error channel the loop takes the events in order. -/
theorem runLoop_ops (sched : Nat → Bool) (ops : List Op) (r : Registry) (log : List String) :
    runLoop sched ops.length ⟨r, Chan.feed [], Chan.feed ops, log⟩
      = (Status.running, ⟨consume r (ops.map Item.op), Chan.feed [], Chan.feed [], log⟩) := by
  induction ops generalizing r with
  | nil => rfl
  | cons o os ih =>
    simp only [List.length_cons, runLoop, selectIter, recv_feed_nil, recv_feed_cons, opCase]
    rw [ih]
    rfl

/-- With an idle event channel the loop takes the errors in order. -/
theorem runLoop_errs (sched : Nat → Bool) (errs : List TailError) (r : Registry)
    (log : List String) :
    (runLoop sched errs.length ⟨r, Chan.feed errs, Chan.feed [], log⟩).1 = Status.running
    ∧ (runLoop sched errs.length ⟨r, Chan.feed errs, Chan.feed [], log⟩).2.reg
        = consume r (errs.map Item.err)
    ∧ (runLoop sched errs.length ⟨r, Chan.feed errs, Chan.feed [], log⟩).2.ErrC = Chan.feed [] := by
  induction errs generalizing r log with
  | nil => exact ⟨rfl, rfl, rfl⟩
  | cons e es ih =>
    simp only [List.length_cons, runLoop, selectIter, recv_feed_nil, recv_feed_cons, errCase]
    exact ih _ _

/-- On open channels one iteration either blocks on an empty backlog or
takes exactly one value and counts it once. -/
theorem selectIter_open (b : Bool) (s : LoopState) (hE : s.ErrC.closed = false)
    (hO : s.OpC.closed = false) :
    (s.backlog = 0 ∧ selectIter b s = Outcome.blocked)
    ∨ ∃ t, selectIter b s = Outcome.next t ∧ t.ErrC.closed = false ∧ t.OpC.closed = false
        ∧ t.backlog + 1 = s.backlog ∧ t.reg.grandTotal = s.reg.grandTotal + 1 := by
  obtain ⟨r, ⟨pe, ce⟩, ⟨po, co⟩, log⟩ := s
  simp only at hE hO
  subst hE hO
  have hErr : ∀ x : Registry, (onErr x).grandTotal = x.grandTotal + 1 := fun x =>
    step_total x (Item.err "")
  have hOp : ∀ (x : Registry) (o : Op), (onOp x o).grandTotal = x.grandTotal + 1 := fun x o =>
    step_total x (Item.op o)
  cases pe with
  | nil =>
    cases po with
    | nil => exact Or.inl ⟨rfl, rfl⟩
    | cons o os =>
      exact Or.inr ⟨_, rfl, rfl, rfl, by simp [LoopState.backlog], hOp _ _⟩
  | cons e es =>
    cases po with
    | nil =>
      exact Or.inr ⟨_, rfl, rfl, rfl, by simp [LoopState.backlog], hErr _⟩
    | cons o os =>
      cases b with
      | true =>
        exact Or.inr ⟨_, rfl, rfl, rfl, by simp [LoopState.backlog]; omega, hErr _⟩
      | false =>
        exact Or.inr ⟨_, rfl, rfl, rfl, by simp [LoopState.backlog]; omega, hOp _ _⟩

/-- On open channels a bounded run never panics, takes one value per
iteration until the backlog is empty, and counts every value it took
exactly once. -/
theorem runLoop_open (sched : Nat → Bool) (n : Nat) (s : LoopState)
    (hE : s.ErrC.closed = false) (hO : s.OpC.closed = false) :
    (runLoop sched n s).1 ≠ Status.panicked
    ∧ (runLoop sched n s).2.backlog = s.backlog - n
    ∧ (runLoop sched n s).2.reg.grandTotal + (runLoop sched n s).2.backlog
        = s.reg.grandTotal + s.backlog := by
  induction n generalizing s with
  | zero => simp [runLoop]
  | succ n ih =>
    rcases selectIter_open (sched n) s hE hO with ⟨h0, hb⟩ | ⟨t, ht, htE, htO, hbl, hgt⟩
    · simp [runLoop, hb, h0]
    · have := ih t htE htO
      simp only [runLoop, ht]
      refine ⟨this.1, ?_, ?_⟩
      · rw [this.2.1]
        omega
      · rw [this.2.2]
        omega

theorem consume_errs (errs : List TailError) (r : Registry) :
    consume r (errs.map Item.err)
      = { r with oplogTailError := r.oplogTailError + errs.length } := by
  induction errs generalizing r with
  | nil => rfl
  | cons e es ih =>
    rw [List.map_cons, consume_cons, ih]
    simp only [step, onErr, List.length_cons]
    congr 1
    omega

theorem mem_keys_addAt_of_mem (l : List (LabelValues × Nat)) (k : LabelValues) (v : Nat)
    (a : LabelValues) (h : a ∈ l.map Prod.fst) : a ∈ (addAt l k v).map Prod.fst := by
  induction l with
  | nil => simp at h
  | cons p rest ih =>
    obtain ⟨k', x⟩ := p
    by_cases hk : k' = k
    · simpa [addAt, hk] using h
    · simp only [List.map_cons, List.mem_cons] at h
      simp only [addAt, hk, if_false, List.map_cons, List.mem_cons]
      rcases h with h | h
      · exact Or.inl h
      · exact Or.inr (ih h)

theorem keys_add_other (c : CounterVec) (k k' : LabelValues) (v : Nat) (h : k' ≠ k) :
    k' ∈ (c.WithLabelValuesAdd k v).keys ↔ k' ∈ c.keys := by
  constructor
  · intro hm
    rcases mem_keys_addAt c.series k v k' hm with h' | h'
    · exact h'
    · exact absurd h' h
  · exact mem_keys_addAt_of_mem c.series k v k'

/-- In a list without repeated keys, each entry holds the value of its key. -/
theorem keys_addFloat_other (c : CounterVec) (k k' : LabelValues) (v : Nat) (h : k' ≠ k) :
    k' ∈ (c.WithLabelValuesAddFloat k v).keys ↔ k' ∈ c.keys := by
  have := keys_add_other c k k' v h
  simp only [CounterVec.keys, CounterVec.WithLabelValuesAdd, CounterVec.WithLabelValuesAddFloat,
    keys_addFloatAt] at this ⊢
  exact this

theorem valueAt_of_mem (l : List (LabelValues × Nat)) (h : (l.map Prod.fst).Nodup)
    (p : LabelValues × Nat) (hp : p ∈ l) : valueAt l p.1 = p.2 := by
  induction l with
  | nil => simp at hp
  | cons q rest ih =>
    obtain ⟨k', x⟩ := q
    simp only [List.map_cons, List.nodup_cons] at h
    simp only [List.mem_cons] at hp
    rcases hp with rfl | hp
    · simp [valueAt]
    · have hne : k' ≠ p.1 := by
        intro heq
        apply h.1
        rw [heq]
        exact List.mem_map_of_mem Prod.fst hp
      simp [valueAt, hne, ih h.2 hp]

theorem map_series_eq (d : Desc) (l : List (LabelValues × Nat)) (h : (l.map Prod.fst).Nodup) :
    l.map (fun p => (⟨d, [p.1.1, p.1.2], p.2⟩ : Metric))
      = (l.map Prod.fst).map (fun k => ⟨d, [k.1, k.2], valueAt l k⟩) := by
  rw [List.map_map]
  apply List.map_congr_left
  intro p hp
  simp [valueAt_of_mem l h p hp]

/-! ## The tail loop: counting -/

/-- C1 (amended): for every series `k` and every sequence of `N` change
events that all carry `k`, the select loop run over that sequence from the
zeroed registry (idle error channel, any scheduling) takes all of them and
leaves the entry count of `k` at `N`; and when the sum of the `N` data
sizes is at most `2 ^ 53`, it leaves the entry size of `k` at that sum.
The same holds for the loop body folded over the events. -/
theorem tail_loop_fixed_series (k : LabelValues) (es : List Op) (sched : Nat → Bool)
    (hk : ∀ e ∈ es, (e.Namespace, e.Operation) = k) :
    (runLoop sched es.length (LoopState.init Registry.zero [] es)).1 = Status.running
    ∧ (runLoop sched es.length (LoopState.init Registry.zero [] es)).2.OpC.pending = []
    ∧ (runLoop sched es.length (LoopState.init Registry.zero [] es)).2.reg.oplogEntryCount.value k
        = es.length
    ∧ (consume Registry.zero (es.map Item.op)).oplogEntryCount.value k = es.length
    ∧ ((es.map Op.DataSize).sum ≤ 2 ^ 53 →
        (runLoop sched es.length
            (LoopState.init Registry.zero [] es)).2.reg.oplogEntrySize.value k
          = (es.map Op.DataSize).sum
        ∧ (consume Registry.zero (es.map Item.op)).oplogEntrySize.value k
          = (es.map Op.DataSize).sum) := by
  have hc := consume_same_key_count k es hk Registry.zero
  have hz1 : Registry.zero.oplogEntryCount.value k = 0 := rfl
  have hz2 : Registry.zero.oplogEntrySize.value k = 0 := rfl
  rw [hz1, Nat.zero_add] at hc
  have hrun := runLoop_ops sched es Registry.zero []
  simp only [LoopState.init]
  rw [hrun]
  refine ⟨rfl, rfl, hc, hc, ?_⟩
  intro hsum
  have hs := consume_same_key_size k es hk Registry.zero (by rw [hz2]; omega)
  rw [hz2, Nat.zero_add] at hs
  exact ⟨hs, hs⟩

/-- Two inserts into `db.users`, of 120 and 7 bytes. -/
theorem tail_loop_fixed_series_witness :
    (∀ e ∈ [(⟨"db.users", "insert", 120⟩ : Op), ⟨"db.users", "insert", 7⟩],
        (e.Namespace, e.Operation) = ("db.users", "insert"))
    ∧ 120 + 7 ≤ 2 ^ 53
    ∧ (runLoop (fun _ => true) 2 (LoopState.init Registry.zero []
          [⟨"db.users", "insert", 120⟩, ⟨"db.users", "insert", 7⟩])).2.reg.oplogEntryCount.value
          ("db.users", "insert") = 2
    ∧ (runLoop (fun _ => true) 2 (LoopState.init Registry.zero []
          [⟨"db.users", "insert", 120⟩, ⟨"db.users", "insert", 7⟩])).2.reg.oplogEntrySize.value
          ("db.users", "insert") = 127 :=
  have hk : ∀ e ∈ [(⟨"db.users", "insert", 120⟩ : Op), ⟨"db.users", "insert", 7⟩],
      (e.Namespace, e.Operation) = ("db.users", "insert") := by
    intro e he
    simp only [List.mem_cons, List.mem_singleton, List.mem_nil_iff, or_false] at he
    rcases he with rfl | rfl <;> rfl
  have h := tail_loop_fixed_series ("db.users", "insert")
    [⟨"db.users", "insert", 120⟩, ⟨"db.users", "insert", 7⟩] (fun _ => true) hk
  ⟨hk, by decide, h.2.2.1, (h.2.2.2.2 (by decide)).1⟩

/-- C1 as stated fails: one insert of `2 ^ 53 + 1` bytes into `db.users`
from the zeroed registry leaves the entry size of that series at `2 ^ 53`,
which is not the sum of the data sizes. -/
theorem tail_loop_size_sum_rounds :
    (runLoop (fun _ => true) 1 (LoopState.init Registry.zero []
        [⟨"db.users", "insert", 9007199254740993⟩])).2.reg.oplogEntrySize.value
        ("db.users", "insert") = 9007199254740992
    ∧ (runLoop (fun _ => true) 1 (LoopState.init Registry.zero []
        [⟨"db.users", "insert", 9007199254740993⟩])).2.reg.oplogEntryCount.value
        ("db.users", "insert") = 1
    ∧ (runLoop (fun _ => true) 1 (LoopState.init Registry.zero []
        [⟨"db.users", "insert", 9007199254740993⟩])).2.reg.oplogEntrySize.value
        ("db.users", "insert")
      ≠ (([⟨"db.users", "insert", 9007199254740993⟩] : List Op).map Op.DataSize).sum := by
  decide

/-- C2: for every interleaving of change events and tail errors, the sum of
all entry counts plus the error count equals the number of items consumed.
First for the loop body folded over the items from the zeroed registry;
then for the select loop itself under any scheduling and any number of
iterations, where the items consumed are those no longer in the channels:
the loop does not panic, it has taken one item per iteration while items
remained, and each is counted exactly once. -/
theorem tail_loop_counts_each_item_once (items : List Item) (sched : Nat → Bool) (n : Nat)
    (errs : List TailError) (ops : List Op) :
    (consume Registry.zero items).oplogEntryCount.total
        + (consume Registry.zero items).oplogTailError = items.length
    ∧ (runLoop sched n (LoopState.init Registry.zero errs ops)).1 ≠ Status.panicked
    ∧ (runLoop sched n (LoopState.init Registry.zero errs ops)).2.backlog
        = errs.length + ops.length - n
    ∧ (runLoop sched n (LoopState.init Registry.zero errs ops)).2.reg.oplogEntryCount.total
        + (runLoop sched n (LoopState.init Registry.zero errs ops)).2.reg.oplogTailError
        = errs.length + ops.length
          - (runLoop sched n (LoopState.init Registry.zero errs ops)).2.backlog := by
  have h1 := consume_total items Registry.zero
  have hz : Registry.zero.oplogEntryCount.total + Registry.zero.oplogTailError = 0 := rfl
  have h2 := runLoop_open sched n (LoopState.init Registry.zero errs ops) rfl rfl
  have hb : (LoopState.init Registry.zero errs ops).backlog = errs.length + ops.length := rfl
  have hg : (LoopState.init Registry.zero errs ops).reg.grandTotal = 0 := rfl
  rw [hb, hg] at h2
  refine ⟨by omega, h2.1, h2.2.1, ?_⟩
  have h3 := h2.2.2
  simp only [Registry.grandTotal] at h3
  omega

/-- C3 (amended): one loop step on a change event `e` adds exactly one to
the entry count of the series `(e.Namespace, e.Operation)` and makes its
entry size the floating point sum of the old size and `float64(e.DataSize)`,
which is an increase by exactly `e.DataSize` whenever the old size plus
`e.DataSize` is at most `2 ^ 53`; it leaves the value and the existence of
every other series of both vectors as they were, and leaves the error
counter alone.  Three events `(db.users, insert, 120)` and one
`(db.orders, update, 50)` from zero give 3 / 360 and 1 / 50 with no error. -/
theorem step_event_frame (r : Registry) (e : Op) :
    (step r (Item.op e)).oplogEntryCount.value (e.Namespace, e.Operation)
        = r.oplogEntryCount.value (e.Namespace, e.Operation) + 1
    ∧ (step r (Item.op e)).oplogEntrySize.value (e.Namespace, e.Operation)
        = toFloat64 (r.oplogEntrySize.value (e.Namespace, e.Operation) + toFloat64 e.DataSize)
    ∧ (r.oplogEntrySize.value (e.Namespace, e.Operation) + e.DataSize ≤ 2 ^ 53 →
        (step r (Item.op e)).oplogEntrySize.value (e.Namespace, e.Operation)
          = r.oplogEntrySize.value (e.Namespace, e.Operation) + e.DataSize)
    ∧ (∀ k, k ≠ (e.Namespace, e.Operation) →
        (step r (Item.op e)).oplogEntryCount.value k = r.oplogEntryCount.value k
        ∧ (step r (Item.op e)).oplogEntrySize.value k = r.oplogEntrySize.value k
        ∧ (k ∈ (step r (Item.op e)).oplogEntryCount.keys ↔ k ∈ r.oplogEntryCount.keys)
        ∧ (k ∈ (step r (Item.op e)).oplogEntrySize.keys ↔ k ∈ r.oplogEntrySize.keys))
    ∧ (step r (Item.op e)).oplogTailError = r.oplogTailError
    ∧ (consume Registry.zero
          [Item.op ⟨"db.users", "insert", 120⟩, Item.op ⟨"db.users", "insert", 120⟩,
           Item.op ⟨"db.users", "insert", 120⟩, Item.op ⟨"db.orders", "update", 50⟩]).oplogEntryCount.series
        = [(("db.users", "insert"), 3), (("db.orders", "update"), 1)]
    ∧ (consume Registry.zero
          [Item.op ⟨"db.users", "insert", 120⟩, Item.op ⟨"db.users", "insert", 120⟩,
           Item.op ⟨"db.users", "insert", 120⟩, Item.op ⟨"db.orders", "update", 50⟩]).oplogEntrySize.series
        = [(("db.users", "insert"), 360), (("db.orders", "update"), 50)]
    ∧ (consume Registry.zero
          [Item.op ⟨"db.users", "insert", 120⟩, Item.op ⟨"db.users", "insert", 120⟩,
           Item.op ⟨"db.users", "insert", 120⟩, Item.op ⟨"db.orders", "update", 50⟩]).oplogTailError
        = 0 := by
  have hsize : (step r (Item.op e)).oplogEntrySize.value (e.Namespace, e.Operation)
      = toFloat64 (r.oplogEntrySize.value (e.Namespace, e.Operation) + toFloat64 e.DataSize) :=
    valueAt_addFloatAt_same _ _ _
  refine ⟨?_, hsize, ?_, ?_, rfl, ?_, ?_, rfl⟩
  · exact valueAt_addAt_same _ _ _
  · intro hb
    rw [hsize, toFloat64_exact e.DataSize (by omega)]
    exact toFloat64_exact _ hb
  · intro k hk
    exact ⟨valueAt_addAt_other _ _ _ _ hk, valueAt_addFloatAt_other _ _ _ _ hk,
      keys_add_other _ _ _ _ hk, keys_addFloat_other _ _ _ _ hk⟩
  · decide
  · decide

/-- An update of 50 bytes on the registry that holds three inserts. -/
theorem step_event_frame_witness :
    (consume Registry.zero
        [Item.op ⟨"db.users", "insert", 120⟩, Item.op ⟨"db.users", "insert", 120⟩,
         Item.op ⟨"db.users", "insert", 120⟩]).oplogEntrySize.value ("db.users", "insert") + 40
      ≤ 2 ^ 53
    ∧ (step (consume Registry.zero
        [Item.op ⟨"db.users", "insert", 120⟩, Item.op ⟨"db.users", "insert", 120⟩,
         Item.op ⟨"db.users", "insert", 120⟩])
        (Item.op ⟨"db.users", "insert", 40⟩)).oplogEntrySize.value ("db.users", "insert")
      = (consume Registry.zero
        [Item.op ⟨"db.users", "insert", 120⟩, Item.op ⟨"db.users", "insert", 120⟩,
         Item.op ⟨"db.users", "insert", 120⟩]).oplogEntrySize.value ("db.users", "insert") + 40 :=
  ⟨by decide,
   (step_event_frame (consume Registry.zero
      [Item.op ⟨"db.users", "insert", 120⟩, Item.op ⟨"db.users", "insert", 120⟩,
       Item.op ⟨"db.users", "insert", 120⟩]) ⟨"db.users", "insert", 40⟩).2.2.1 (by decide)⟩

/-- C3 as stated fails: on the registry whose `(db.users, insert)` series
holds `2 ^ 53` bytes, one step on an event of one byte for that series
leaves the entry size at `2 ^ 53`; it does not grow by the data size. -/
theorem step_event_size_rounds :
    (consume Registry.zero
        [Item.op ⟨"db.users", "insert", 9007199254740992⟩]).oplogEntrySize.value
        ("db.users", "insert") = 9007199254740992
    ∧ (step (consume Registry.zero [Item.op ⟨"db.users", "insert", 9007199254740992⟩])
        (Item.op ⟨"db.users", "insert", 1⟩)).oplogEntrySize.value ("db.users", "insert")
      = 9007199254740992
    ∧ (step (consume Registry.zero [Item.op ⟨"db.users", "insert", 9007199254740992⟩])
        (Item.op ⟨"db.users", "insert", 1⟩)).oplogEntrySize.value ("db.users", "insert")
      ≠ (consume Registry.zero
          [Item.op ⟨"db.users", "insert", 9007199254740992⟩]).oplogEntrySize.value
          ("db.users", "insert") + (⟨"db.users", "insert", 1⟩ : Op).DataSize := by
  decide

/-- C4: from any registry, a run of the loop that is fed `n` tail errors
and no events adds exactly `n` to the error counter and leaves both vector
counters as they were, series and values alike; this holds for the loop
body folded over the errors and for the select loop under any scheduling.
Two errors from the zeroed registry give an error count of two and no
entry series at all. -/
theorem tail_errors_only (r : Registry) (errs : List TailError) (sched : Nat → Bool)
    (log : List String) :
    (consume r (errs.map Item.err)).oplogTailError = r.oplogTailError + errs.length
    ∧ (consume r (errs.map Item.err)).oplogEntryCount = r.oplogEntryCount
    ∧ (consume r (errs.map Item.err)).oplogEntrySize = r.oplogEntrySize
    ∧ (runLoop sched errs.length ⟨r, Chan.feed errs, Chan.feed [], log⟩).1 = Status.running
    ∧ (runLoop sched errs.length ⟨r, Chan.feed errs, Chan.feed [], log⟩).2.ErrC.pending = []
    ∧ (runLoop sched errs.length ⟨r, Chan.feed errs, Chan.feed [], log⟩).2.reg
        = { r with oplogTailError := r.oplogTailError + errs.length }
    ∧ (consume Registry.zero [Item.err "first", Item.err "second"]).oplogTailError = 2
    ∧ (consume Registry.zero [Item.err "first", Item.err "second"]).oplogEntryCount.series = []
    ∧ (consume Registry.zero [Item.err "first", Item.err "second"]).oplogEntrySize.series = [] := by
  have h := runLoop_errs sched errs r log
  rw [consume_errs] at h
  rw [consume_errs]
  refine ⟨rfl, rfl, rfl, h.1, ?_, h.2.1, rfl, rfl, rfl⟩
  rw [h.2.2]
  rfl

/-- C8: monotonicity.  One loop step on any item (a tail error, or a change
event, whose data size is a natural number) leaves every entry count
series, every entry size series and the error counter at least as large as
before; the same holds for one iteration of the select loop, and along any
run: whatever was consumed before and whatever comes after, the later
value of a series is never below the earlier one. -/
theorem tail_loop_monotone (r : Registry) (x : Item) (k : LabelValues)
    (before after : List Item) (b : Bool) (s : LoopState) :
    r.oplogEntryCount.value k ≤ (step r x).oplogEntryCount.value k
    ∧ r.oplogEntrySize.value k ≤ (step r x).oplogEntrySize.value k
    ∧ r.oplogTailError ≤ (step r x).oplogTailError
    ∧ (consume r before).oplogEntryCount.value k
        ≤ (consume r (before ++ after)).oplogEntryCount.value k
    ∧ (consume r before).oplogEntrySize.value k
        ≤ (consume r (before ++ after)).oplogEntrySize.value k
    ∧ (consume r before).oplogTailError ≤ (consume r (before ++ after)).oplogTailError
    ∧ (∀ t, selectIter b s = Outcome.next t →
        s.reg.oplogEntryCount.value k ≤ t.reg.oplogEntryCount.value k
        ∧ s.reg.oplogEntrySize.value k ≤ t.reg.oplogEntrySize.value k
        ∧ s.reg.oplogTailError ≤ t.reg.oplogTailError) := by
  have h1 := step_mono r x k
  have h2 := consume_mono after (consume r before) k
  rw [← consume_append] at h2
  refine ⟨h1.1, h1.2.1, h1.2.2, h2.1, h2.2.1, h2.2.2, ?_⟩
  intro t ht
  have hE : ∀ (e : Option TailError) (c : Chan TailError), errCase s e c = Outcome.next t →
      s.reg.oplogEntryCount.value k ≤ t.reg.oplogEntryCount.value k
      ∧ s.reg.oplogEntrySize.value k ≤ t.reg.oplogEntrySize.value k
      ∧ s.reg.oplogTailError ≤ t.reg.oplogTailError := by
    intro e c hc
    simp only [errCase, Outcome.next.injEq] at hc
    subst hc
    exact step_mono s.reg (Item.err "") k
  have hO : ∀ (o : Option Op) (c : Chan Op), opCase s o c = Outcome.next t →
      s.reg.oplogEntryCount.value k ≤ t.reg.oplogEntryCount.value k
      ∧ s.reg.oplogEntrySize.value k ≤ t.reg.oplogEntrySize.value k
      ∧ s.reg.oplogTailError ≤ t.reg.oplogTailError := by
    intro o c hc
    cases o with
    | none => simp [opCase] at hc
    | some op =>
      simp only [opCase, Outcome.next.injEq] at hc
      subst hc
      exact step_mono s.reg (Item.op op) k
  unfold selectIter at ht
  split at ht
  · exact absurd ht (by simp)
  · exact hE _ _ ht
  · exact hO _ _ ht
  · split at ht
    · exact hE _ _ ht
    · exact hO _ _ ht

/-! ## The exporter facade -/

/-- C9: for every registry, `Export` sends one sample for every existing
entry count series, then one for every existing entry size series, then
the error counter, each with the current value of its series, and
`Describe` sends the descriptors of exactly these three counters in the
same order; neither changes the registry. -/
theorem export_describe_read_only (ns : String) (r : Registry) (ch : List Metric)
    (chd : List Desc) :
    (Export ns r ch).2
      = ch ++ r.oplogEntryCount.keys.map
            (fun k => ⟨entryCountDesc ns, [k.1, k.2], r.oplogEntryCount.value k⟩)
          ++ r.oplogEntrySize.keys.map
            (fun k => ⟨entrySizeDesc ns, [k.1, k.2], r.oplogEntrySize.value k⟩)
          ++ [⟨tailErrorDesc ns, [], r.oplogTailError⟩]
    ∧ (Export ns r ch).1 = r
    ∧ (Describe ns r chd).2 = chd ++ [entryCountDesc ns, entrySizeDesc ns, tailErrorDesc ns]
    ∧ (Describe ns r chd).1 = r := by
  have key : ∀ (d : Desc) (c : CounterVec),
      c.series.map (fun p => (⟨d, [p.1.1, p.1.2], p.2⟩ : Metric))
        = c.keys.map (fun k => ⟨d, [k.1, k.2], c.value k⟩) := by
    intro d c
    exact map_series_eq d c.series c.nodup
  refine ⟨?_, rfl, ?_, rfl⟩
  · simp only [Export, CounterVec.Collect, collectCounter, key]
  · simp [Describe]

/-! ## The singleton and the session it tails on -/

theorem GetOplogTailStats_started (w : World) (h : Nat) (hw : w.tailer = some h) (p : Nat) :
    GetOplogTailStats w p = (w, some h) := by
  simp [GetOplogTailStats, hw]

theorem callAll_started (ps : List Nat) (w : World) (h : Nat) (hw : w.tailer = some h) :
    callAll w ps = (w, List.replicate ps.length (some h)) := by
  induction ps with
  | nil => rfl
  | cons p ps ih =>
    simp only [callAll, GetOplogTailStats_started w h hw, ih, List.length_cons,
      List.replicate_succ]

theorem GetOplogTailStats_first (w : World) (hw : w.tailer = none) (p : Nat)
    (hopen : (w.store p).closed = false) :
    GetOplogTailStats w p
      = ({ store := setData w.store w.nextSession (w.store p)
           dialInfos := w.dialInfos
           nextSession := w.nextSession + 1
           tailer := some w.nextHandle
           nextHandle := w.nextHandle + 1
           goroutines := w.goroutines ++ [(w.nextHandle, w.nextSession)] },
         some w.nextHandle) := by
  simp [GetOplogTailStats, hw, Copy, hopen]

/-- C5 (amended): for every sequence of calls of `GetOplogTailStats`, with
any sessions, from a state whose `tailer` is nil and with the first session
open: exactly one loop is launched, by the first call and on the copy that
call made; every call returns the same handle; the calls after the first
change nothing at all (no copy, no handle, no launch).  The one loop runs
on the copy of the first session: the calls leave every earlier session as
it was, what `Start` does leaves the mode and the open or closed status of
every earlier session as they were, and leaves every earlier session that
does not point at the `DialInfo` of the first session wholly as it was. -/
theorem singleton_started_once (defaults : Options) (w : World) (p : Nat) (ps : List Nat)
    (hw : w.tailer = none) (hopen : (w.store p).closed = false) :
    (callAll w (p :: ps)).1 = (GetOplogTailStats w p).1
    ∧ (callAll w (p :: ps)).2 = List.replicate (ps.length + 1) (some w.nextHandle)
    ∧ (callAll w (p :: ps)).1.goroutines = w.goroutines ++ [(w.nextHandle, w.nextSession)]
    ∧ (callAll w (p :: ps)).1.nextSession = w.nextSession + 1
    ∧ (callAll w (p :: ps)).1.nextHandle = w.nextHandle + 1
    ∧ (callAll w (p :: ps)).1.tailer = some w.nextHandle
    ∧ (∀ q, q < w.nextSession →
        (callAll w (p :: ps)).1.sessions q = w.sessions q
        ∧ ((StartDeferred (StartSetup defaults (callAll w (p :: ps)).1 w.nextSession).1
            w.nextSession).sessions q).mode = (w.sessions q).mode
        ∧ ((StartDeferred (StartSetup defaults (callAll w (p :: ps)).1 w.nextSession).1
            w.nextSession).sessions q).closed = (w.sessions q).closed
        ∧ ((w.store q).dialInfo ≠ (w.store p).dialInfo →
            (StartSetup defaults (callAll w (p :: ps)).1 w.nextSession).1.sessions q
              = w.sessions q
            ∧ (StartDeferred (StartSetup defaults (callAll w (p :: ps)).1 w.nextSession).1
                w.nextSession).sessions q = w.sessions q)) := by
  have h1 := GetOplogTailStats_first w hw p hopen
  have h2 : (callAll w (p :: ps)) = ((GetOplogTailStats w p).1,
      List.replicate (ps.length + 1) (some w.nextHandle)) := by
    simp only [callAll]
    rw [callAll_started ps (GetOplogTailStats w p).1 w.nextHandle (by rw [h1])]
    rw [h1, List.replicate_succ]
  rw [h2, h1]
  refine ⟨rfl, rfl, rfl, rfl, rfl, rfl, ?_⟩
  intro q hq
  have hne : q ≠ w.nextSession := Nat.ne_of_lt hq
  refine ⟨?_, ?_, ?_, ?_⟩
  · simp [World.sessions, setData, hne]
  · simp [World.sessions, StartDeferred, StartSetup, Close, SetMode, SetSocketTimeout, setData,
      hne]
  · simp [World.sessions, StartDeferred, StartSetup, Close, SetMode, SetSocketTimeout, setData,
      hne]
  · intro hd
    constructor <;>
      simp [World.sessions, StartDeferred, StartSetup, Close, SetMode, SetSocketTimeout, setData,
        setDial, hne, hd]

/-- Three calls with three different sessions on the sample state. -/
theorem singleton_started_once_witness :
    sampleWorld.tailer = none ∧ (sampleWorld.store 0).closed = false
    ∧ (callAll sampleWorld [0, 1, 2]).2 = [some 0, some 0, some 0]
    ∧ (callAll sampleWorld [0, 1, 2]).1.goroutines = [(0, 3)]
    ∧ (callAll sampleWorld [0, 1, 2]).1.nextSession = 4 :=
  have h := singleton_started_once ⟨false, none⟩ sampleWorld 0 [1, 2] rfl rfl
  ⟨rfl, rfl, h.2.1, h.2.2.1, h.2.2.2.1⟩

/-- C5 as stated fails: when the first session is already closed, the first
call panics in `Copy` after `tailer` was set; no loop is launched then or
later, and the next call returns a handle behind which nothing runs. -/
theorem singleton_closed_first_session :
    closedWorld.tailer = none
    ∧ (callAll closedWorld [0, 1]).2 = [none, some 0]
    ∧ (callAll closedWorld [0, 1]).1.goroutines = []
    ∧ (callAll closedWorld [0, 1]).1.tailer = some 0 := by
  refine ⟨rfl, ?_, ?_, ?_⟩ <;> rfl

/-- C6: the code at the failing input.  Session 1 of the sample state is
open with a socket timeout of 1 ns.  The first call launches the loop on
the copy at address 3, which points at the `DialInfo` of session 1; after
the setup of `Start` on that copy, session 1 itself has a socket timeout of
120 s.  Its mode and its open status are kept, also after the deferred
close of `Start`. -/
theorem start_on_copy_retimes_original (defaults : Options) :
    sampleWorld.tailer = none
    ∧ sampleWorld.sessions 1 = ⟨1, Mode.Strong, false, none⟩
    ∧ (GetOplogTailStats sampleWorld 1).2 = some 0
    ∧ (GetOplogTailStats sampleWorld 1).1.goroutines = [(0, 3)]
    ∧ (GetOplogTailStats sampleWorld 1).1.sessions 1 = ⟨1, Mode.Strong, false, none⟩
    ∧ (GetOplogTailStats sampleWorld 1).1.sessions 3 = ⟨1, Mode.Strong, false, none⟩
    ∧ (StartSetup defaults (GetOplogTailStats sampleWorld 1).1 3).1.sessions 3
        = ⟨120000000000, Mode.Monotonic, false, none⟩
    ∧ (StartSetup defaults (GetOplogTailStats sampleWorld 1).1 3).1.sessions 1
        = ⟨120000000000, Mode.Strong, false, none⟩
    ∧ (StartDeferred (StartSetup defaults (GetOplogTailStats sampleWorld 1).1 3).1
        3).sessions 1 = ⟨120000000000, Mode.Strong, false, none⟩
    ∧ (StartDeferred (StartSetup defaults (GetOplogTailStats sampleWorld 1).1 3).1
        3).sessions 3 = ⟨120000000000, Mode.Monotonic, true, none⟩ := by
  refine ⟨rfl, ?_, ?_, ?_, ?_, ?_, ?_, ?_, ?_, ?_⟩ <;> rfl

/-- C7: for every session handed to `Start`, a node outside any replica set
included, the call of `gtm.Start` is made on that session, after it was
given a socket timeout of 120 seconds and the monotonic mode, with options
that have `IncludeMigrate` set and `OpLogCollectionName` pointing at
`"oplog.rs"`; with these options the library takes the name from the
options, so the lookup in the topology is not made and cannot fail. -/
theorem start_options (defaults : Options) (w : World) (session : Nat) :
    (StartSetup defaults w session).2.opts.IncludeMigrate = true
    ∧ (StartSetup defaults w session).2.opts.OpLogCollectionName = some "oplog.rs"
    ∧ (StartSetup defaults w session).2.session = session
    ∧ (StartSetup defaults w session).2.sessionState.socketTimeout = 120 * Second
    ∧ (StartSetup defaults w session).2.sessionState.mode = Mode.Monotonic
    ∧ (StartSetup defaults w session).2.sessionState
        = (StartSetup defaults w session).1.sessions session
    ∧ (StartSetup defaults w session).2.sessionState.topologyOplog
        = (w.sessions session).topologyOplog
    ∧ gtmOplogName (StartSetup defaults w session).2 = Except.ok "oplog.rs" := by
  refine ⟨rfl, rfl, rfl, ?_, ?_, rfl, ?_, rfl⟩ <;>
    simp [StartSetup, World.sessions, SetMode, SetSocketTimeout, setData, setDial, Nat.mul_comm]

/-! ## The loop when the channels run dry -/

/-- C10 (amended): when both channels are open and hold nothing, one
`select` blocks, and so does every bounded run: no counter moves, nothing
is logged, nothing panics, and the state stays as it is. -/
theorem idle_open_channels_block (r : Registry) (log : List String) (b : Bool)
    (sched : Nat → Bool) (n : Nat) :
    selectIter b ⟨r, ⟨[], false⟩, ⟨[], false⟩, log⟩ = Outcome.blocked
    ∧ runLoop sched (n + 1) ⟨r, ⟨[], false⟩, ⟨[], false⟩, log⟩
        = (Status.blocked, ⟨r, ⟨[], false⟩, ⟨[], false⟩, log⟩) :=
  ⟨rfl, rfl⟩

/-- C10 as stated fails for closed channels: on a drained and closed event
channel the receive yields nil and the loop panics on `op.Namespace`; on a
drained and closed error channel the loop does not block either, and three
iterations count three errors that were never sent. -/
theorem closed_channels_do_not_block :
    selectIter true ⟨Registry.zero, ⟨[], false⟩, ⟨[], true⟩, []⟩ = Outcome.panicked
    ∧ (runLoop (fun _ => true) 1 ⟨Registry.zero, ⟨[], false⟩, ⟨[], true⟩, []⟩).1
        = Status.panicked
    ∧ (runLoop (fun _ => true) 3 ⟨Registry.zero, ⟨[], true⟩, ⟨[], false⟩, []⟩).1
        = Status.running
    ∧ (runLoop (fun _ => true) 3 ⟨Registry.zero, ⟨[], true⟩, ⟨[], false⟩, []⟩).2.reg.oplogTailError
        = 3
    ∧ (runLoop (fun _ => true) 3 ⟨Registry.zero, ⟨[], true⟩, ⟨[], false⟩, []⟩).2.log.length
        = 3 :=
  ⟨rfl, rfl, rfl, rfl, rfl⟩

end Collector
